import Mathlib

/-!
Shallow embedding of the `ethcontract` binding-generation pipeline
(`src/generate/src/contract/{methods,events,common}.rs`,
`src/ethcontract-generate/src/generate/deployment.rs`) together with the
run-time semantics of the code it emits (the event decode dispatcher
`parse_log`, the event `from_tokens` decoder, the filter builders and the
deployment items).  Identifiers are modelled as plain strings, token streams
as structured lists of items, and the external collaborators (keccak hashing,
`log.decode`, token conversion) as function parameters.
-/

/-! ### Lexicographic string order

Rust compares `String`s byte-wise on their UTF-8 encoding, which coincides
with lexicographic comparison of the scalar-value sequences.  We model it as
a computable Boolean relation on the character lists so that concrete
computations reduce. -/

def charListLe : List Char → List Char → Bool
  | [], _ => true
  | _ :: _, [] => false
  | a :: as, b :: bs => if a = b then charListLe as bs else decide (a.toNat < b.toNat)

def strLe (s t : String) : Bool := charListLe s.data t.data

def strLt (s t : String) : Bool := ! strLe t s

theorem charListLe_refl : ∀ l : List Char, charListLe l l = true
  | [] => rfl
  | a :: as => by simp [charListLe, charListLe_refl as]

theorem charListLe_total : ∀ l₁ l₂ : List Char, charListLe l₁ l₂ = true ∨ charListLe l₂ l₁ = true
  | [], _ => Or.inl rfl
  | _ :: _, [] => Or.inr rfl
  | a :: as, b :: bs => by
    by_cases hab : a = b
    · subst hab
      simpa [charListLe] using charListLe_total as bs
    · have hba : b ≠ a := fun h => hab h.symm
      have hne : a.toNat ≠ b.toNat := fun h => hab (Char.ext (UInt32.ext h))
      rcases Nat.lt_or_ge a.toNat b.toNat with h | h
      · exact Or.inl (by simp [charListLe, hab, h])
      · have hlt : b.toNat < a.toNat := Nat.lt_of_le_of_ne h (fun hh => hne hh.symm)
        exact Or.inr (by simp [charListLe, hba, hlt])

theorem charListLe_antisymm : ∀ l₁ l₂ : List Char,
    charListLe l₁ l₂ = true → charListLe l₂ l₁ = true → l₁ = l₂
  | [], [], _, _ => rfl
  | [], _ :: _, _, h => by simp [charListLe] at h
  | _ :: _, [], h, _ => by simp [charListLe] at h
  | a :: as, b :: bs, h₁, h₂ => by
    by_cases hab : a = b
    · subst hab
      simp only [charListLe, if_pos rfl] at h₁ h₂
      exact congrArg (a :: ·) (charListLe_antisymm as bs h₁ h₂)
    · have hba : b ≠ a := fun h => hab h.symm
      simp only [charListLe, if_neg hab, decide_eq_true_eq] at h₁
      simp only [charListLe, if_neg hba, decide_eq_true_eq] at h₂
      omega

theorem charListLe_trans : ∀ l₁ l₂ l₃ : List Char,
    charListLe l₁ l₂ = true → charListLe l₂ l₃ = true → charListLe l₁ l₃ = true
  | [], _, _, _, _ => rfl
  | _ :: _, [], _, h, _ => by simp [charListLe] at h
  | _ :: _, _ :: _, [], _, h => by simp [charListLe] at h
  | a :: as, b :: bs, c :: cs, h₁, h₂ => by
    by_cases hab : a = b
    · subst hab
      simp only [charListLe, if_pos rfl] at h₁
      by_cases hbc : a = c
      · subst hbc
        simp only [charListLe, if_pos rfl] at h₂ ⊢
        exact charListLe_trans as bs cs h₁ h₂
      · simp only [charListLe, if_neg hbc] at h₂ ⊢
        exact h₂
    · simp only [charListLe, if_neg hab, decide_eq_true_eq] at h₁
      by_cases hbc : b = c
      · subst hbc
        simp [charListLe, hab, h₁]
      · simp only [charListLe, if_neg hbc, decide_eq_true_eq] at h₂
        have hac : a ≠ c := by
          intro h
          subst h
          have : b.toNat < b.toNat := Nat.lt_trans h₂ h₁
          omega
        simp only [charListLe, if_neg hac, decide_eq_true_eq]
        omega

theorem strLe_refl (s : String) : strLe s s = true := charListLe_refl s.data

theorem strLe_total (s t : String) : strLe s t = true ∨ strLe t s = true :=
  charListLe_total s.data t.data

theorem strLe_antisymm {s t : String} (h₁ : strLe s t = true) (h₂ : strLe t s = true) : s = t := by
  cases s with
  | mk d₁ =>
    cases t with
    | mk d₂ => exact congrArg String.mk (charListLe_antisymm d₁ d₂ h₁ h₂)

theorem strLe_trans {s t u : String} (h₁ : strLe s t = true) (h₂ : strLe t u = true) :
    strLe s u = true :=
  charListLe_trans s.data t.data u.data h₁ h₂

theorem strLt_iff_not_le {s t : String} : strLt s t = true ↔ ¬ strLe t s = true := by
  simp [strLt]

theorem strLe_of_strLt {s t : String} (h : strLt s t = true) : strLe s t = true := by
  rcases strLe_total s t with hle | hle
  · exact hle
  · exact absurd hle (strLt_iff_not_le.mp h)

theorem strLt_ne {s t : String} (h : strLt s t = true) : s ≠ t := by
  intro he
  subst he
  exact strLt_iff_not_le.mp h (strLe_refl s)

/-! ### Decimal rendering of naturals

Models Rust's `format!("{}", n)` for a `usize` (used for the positional
placeholders `p{i}` and the topic setters `topic{k}`).  Structural in a fuel
argument so that concrete values reduce. -/

def digitChar (d : Nat) : Char :=
  match d with
  | 0 => '0' | 1 => '1' | 2 => '2' | 3 => '3' | 4 => '4'
  | 5 => '5' | 6 => '6' | 7 => '7' | 8 => '8' | _ => '9'

def natDecChars : Nat → Nat → List Char
  | 0, _ => []
  | fuel + 1, n => if n = 0 then [] else natDecChars fuel (n / 10) ++ [digitChar (n % 10)]

def natDecimal (n : Nat) : String :=
  if n = 0 then "0" else ⟨natDecChars (n + 1) n⟩

theorem digitChar_bounds (d : Nat) : 48 ≤ (digitChar d).toNat ∧ (digitChar d).toNat ≤ 57 := by
  rcases d with _ | _ | _ | _ | _ | _ | _ | _ | _ | d <;> simp [digitChar]

theorem natDecChars_digits :
    ∀ fuel n : Nat, ∀ c ∈ natDecChars fuel n, 48 ≤ c.toNat ∧ c.toNat ≤ 57 := by
  intro fuel
  induction fuel with
  | zero => intro n c hc; simp [natDecChars] at hc
  | succ fuel ih =>
    intro n c hc
    by_cases hn : n = 0
    · simp [natDecChars, hn] at hc
    · simp only [natDecChars, if_neg hn, List.mem_append, List.mem_singleton] at hc
      rcases hc with hc | hc
      · exact ih _ c hc
      · subst hc; exact digitChar_bounds _

theorem natDecimal_digits (n : Nat) : ∀ c ∈ (natDecimal n).data, 48 ≤ c.toNat ∧ c.toNat ≤ 57 := by
  intro c hc
  by_cases hn : n = 0
  · simp [natDecimal, hn] at hc
    subst hc; decide
  · simp only [natDecimal, if_neg hn] at hc
    exact natDecChars_digits _ _ c hc

theorem natDecChars_ne_nil (fuel n : Nat) (hn : n ≠ 0) : natDecChars (fuel + 1) n ≠ [] := by
  simp [natDecChars, hn]

theorem natDecimal_ne_nil (n : Nat) : (natDecimal n).data ≠ [] := by
  by_cases hn : n = 0
  · simp [natDecimal, hn]
  · simpa [natDecimal, hn] using natDecChars_ne_nil n n hn

/-! ### Name resolution -/

/-- Modelled from the spec: the reserved words of the target language (Rust),
against which `util::safe_ident` (in `src/generate/src/util.rs`, not included
under `src/`) checks resolved identifiers. -/
def rustKeywords : List String :=
  ["as", "break", "const", "continue", "crate", "dyn", "else", "enum", "extern",
   "false", "fn", "for", "if", "impl", "in", "let", "loop", "match", "mod",
   "move", "mut", "pub", "ref", "return", "self", "Self", "static", "struct",
   "super", "trait", "true", "type", "unsafe", "use", "where", "while", "async",
   "await", "abstract", "become", "box", "do", "final", "macro", "override",
   "priv", "typeof", "unsized", "virtual", "yield", "try"]

/-- Modelled from the spec: `util::safe_ident` (the file
`src/generate/src/util.rs` is not included under `src/`); a resolved name that
collides with a reserved word of the target language is escaped by the fixed
transform appending a trailing underscore (`self` becomes `self_`). -/
def safeIdent (s : String) : String :=
  if s ∈ rustKeywords then s ++ "_" else s

/-- Whether a snake-case word boundary falls between adjacent characters:
before an upper-case letter that follows a lower-case letter or digit, and
before a digit that follows a letter. -/
def snakeBoundary (p c : Char) : Bool :=
  (c.isUpper && (p.isLower || p.isDigit)) || (c.isDigit && p.isAlpha)

def snakeChars : Option Char → List Char → List Char
  | _, [] => []
  | none, c :: cs => c.toLower :: snakeChars (some c) cs
  | some p, c :: cs =>
    if snakeBoundary p c then '_' :: c.toLower :: snakeChars (some c) cs
    else c.toLower :: snakeChars (some c) cs

/-- Modelled from the spec: the external `Inflector::to_snake_case` case
conversion used by the generator (an external crate, not part of this
repository): arbitrary-case source names are deterministically converted to
the target's snake-case convention (`CamelCase1` becomes `camel_case_1`). -/
def toSnakeCase (s : String) : String := ⟨snakeChars none s.data⟩

def pascalChars : Bool → List Char → List Char
  | _, [] => []
  | cap, c :: cs =>
    if c = '_' then pascalChars true cs
    else (if cap then c.toUpper else c) :: pascalChars false cs

/-- Modelled from the spec: the external `Inflector::to_pascal_case` case
conversion used for event data type and enum variant names. -/
def toPascalCase (s : String) : String := ⟨pascalChars true s.data⟩

/-- `input_name_to_ident` from `src/generate/src/contract/methods.rs` (the
identical helper `util::expand_input_name` is used by the event generator):
an empty raw name becomes the positional placeholder `p{index}`, any other
name is snake-cased; the result is passed through `safe_ident`. -/
def inputNameToIdent (index : Nat) (name : String) : String :=
  let nameStr := if name = "" then "p" ++ natDecimal index else toSnakeCase name
  safeIdent nameStr

theorem rustKeywords_chars_gt_57 :
    ∀ k ∈ rustKeywords, ∀ c ∈ k.data, 57 < c.toNat := by decide

theorem p_placeholder_not_keyword (i : Nat) : ("p" ++ natDecimal i) ∉ rustKeywords := by
  intro hmem
  have hdata : ("p" ++ natDecimal i).data = 'p' :: (natDecimal i).data := by
    rw [String.data_append]
    rfl
  rcases List.exists_cons_of_ne_nil (natDecimal_ne_nil i) with ⟨c, cs, hcs⟩
  have hc : c ∈ ("p" ++ natDecimal i).data := by
    rw [hdata, hcs]
    exact List.mem_cons_of_mem _ (List.mem_cons_self _ _)
  have hgt : 57 < c.toNat := rustKeywords_chars_gt_57 _ hmem c hc
  have hle : c.toNat ≤ 57 := by
    have := natDecimal_digits i c (by rw [hcs]; exact List.mem_cons_self _ _)
    exact this.2
  omega

theorem inputNameToIdent_empty (i : Nat) : inputNameToIdent i "" = "p" ++ natDecimal i := by
  simp [inputNameToIdent, safeIdent, p_placeholder_not_keyword i]

/-! ### Parameter types and the type mapper -/

/-- `ParamType` of the `ethabi` version the generated code is pinned against
(`ethabi_9_0`, see the `private::ethabi_9_0` paths emitted in
`src/generate/src/contract/events.rs`); it has no tuple kind. -/
inductive ParamType where
  | address
  | bytes
  | int (w : Nat)
  | uint (w : Nat)
  | bool
  | string
  | array (t : ParamType)
  | fixedBytes (n : Nat)
  | fixedArray (t : ParamType) (n : Nat)
deriving Repr, DecidableEq

/-- Target (Rust) types produced by the type mapper, kept abstract. -/
inductive TargetType where
  | bool
  | address
  | string
  | bytes
  | uint (w : Nat)
  | int (w : Nat)
  | fixedBytes (n : Nat)
  | vec (t : TargetType)
  | arr (t : TargetType) (n : Nat)
  | tup (ts : List TargetType)
deriving Repr

inductive GenError where
  | unsupportedType (t : ParamType)
  | unknownAlias (signature : String)
deriving Repr, DecidableEq

/-- Modelled from the spec: `types::expand`, the TypeMapper
(`src/generate/src/contract/types.rs` is not included under `src/`): a
deterministic table for scalar kinds, recursive on container kinds, failing
with `UnsupportedType` when a numeric width is not representable (widths are
bit counts in 8..256, multiples of 8; fixed byte sizes are 1..32). -/
def typesExpand : ParamType → Except GenError TargetType
  | .address => .ok .address
  | .bytes => .ok .bytes
  | .bool => .ok .bool
  | .string => .ok .string
  | .int w =>
    if 0 < w ∧ w ≤ 256 ∧ w % 8 = 0 then .ok (.int w) else .error (.unsupportedType (.int w))
  | .uint w =>
    if 0 < w ∧ w ≤ 256 ∧ w % 8 = 0 then .ok (.uint w) else .error (.unsupportedType (.uint w))
  | .fixedBytes n =>
    if 0 < n ∧ n ≤ 32 then .ok (.fixedBytes n) else .error (.unsupportedType (.fixedBytes n))
  | .array t => (typesExpand t).map .vec
  | .fixedArray t n => (typesExpand t).map (.arr · n)

/-- Modelled from the spec: the canonical textual encoding of a parameter type
(the `ethabi` writer used by `abiext`'s canonical signature computation, not
included under `src/`). -/
def ParamType.canonical : ParamType → String
  | .address => "address"
  | .bytes => "bytes"
  | .int w => "int" ++ natDecimal w
  | .uint w => "uint" ++ natDecimal w
  | .bool => "bool"
  | .string => "string"
  | .array t => t.canonical ++ "[]"
  | .fixedBytes n => "bytes" ++ natDecimal n
  | .fixedArray t n => t.canonical ++ "[" ++ natDecimal n ++ "]"

def joinComma : List String → String
  | [] => ""
  | [s] => s
  | s :: rest => s ++ "," ++ joinComma rest

/-! ### Generic helpers mirroring the Rust iterator combinators -/

/-- Mirrors `collect::<Result<Vec<_>, _>>()`: apply `f` in order, stopping at
the first error. -/
def collectResult {ε α β : Type} (f : α → Except ε β) : List α → Except ε (List β)
  | [] => .ok []
  | a :: as =>
    match f a with
    | .error e => .error e
    | .ok b =>
      match collectResult f as with
      | .error e => .error e
      | .ok bs => .ok (b :: bs)

/-- Mirrors `.enumerate()` starting at `n`. -/
def enumFromN {α : Type} (n : Nat) : List α → List (Nat × α)
  | [] => []
  | a :: as => (n, a) :: enumFromN (n + 1) as

def enumL {α : Type} (l : List α) : List (Nat × α) := enumFromN 0 l

theorem collectResult_ok_length {ε α β : Type} (f : α → Except ε β) :
    ∀ (l : List α) (ys : List β), collectResult f l = .ok ys → ys.length = l.length := by
  intro l
  induction l with
  | nil => intro ys h; simp [collectResult] at h; simp [← h]
  | cons a as ih =>
    intro ys h
    simp only [collectResult] at h
    cases hfa : f a with
    | error e => rw [hfa] at h; exact absurd h (by simp)
    | ok b =>
      rw [hfa] at h
      cases hrest : collectResult f as with
      | error e => rw [hrest] at h; exact absurd h (by simp)
      | ok bs =>
        rw [hrest] at h
        simp only [Except.ok.injEq] at h
        subst h
        simp [ih bs hrest]

theorem collectResult_ok_get {ε α β : Type} (f : α → Except ε β) :
    ∀ (l : List α) (ys : List β), collectResult f l = .ok ys →
      ∀ (i : Nat) (a : α), l[i]? = some a → ∃ b, ys[i]? = some b ∧ f a = .ok b := by
  intro l
  induction l with
  | nil => intro ys _ i a ha; simp at ha
  | cons x xs ih =>
    intro ys h i a ha
    simp only [collectResult] at h
    cases hfa : f x with
    | error e => rw [hfa] at h; exact absurd h (by simp)
    | ok b =>
      rw [hfa] at h
      cases hrest : collectResult f xs with
      | error e => rw [hrest] at h; exact absurd h (by simp)
      | ok bs =>
        rw [hrest] at h
        simp only [Except.ok.injEq] at h
        subst h
        cases i with
        | zero =>
          simp only [List.getElem?_cons_zero, Option.some.injEq] at ha
          subst ha
          exact ⟨b, by simp, hfa⟩
        | succ j =>
          simp only [List.getElem?_cons_succ] at ha
          rcases ih bs hrest j a ha with ⟨b', hb', hfb'⟩
          exact ⟨b', by simpa using hb', hfb'⟩

theorem enumFromN_length {α : Type} : ∀ (l : List α) (n : Nat), (enumFromN n l).length = l.length
  | [], _ => rfl
  | _ :: as, n => by simp [enumFromN, enumFromN_length as (n + 1)]

theorem enumFromN_getElem? {α : Type} :
    ∀ (l : List α) (n i : Nat), (enumFromN n l)[i]? = (l[i]?).map (fun a => (n + i, a)) := by
  intro l
  induction l with
  | nil => intro n i; simp [enumFromN]
  | cons a as ih =>
    intro n i
    cases i with
    | zero => simp [enumFromN]
    | succ j =>
      simp only [enumFromN, List.getElem?_cons_succ]
      rw [ih (n + 1) j]
      cases as[j]? with
      | none => simp
      | some a => simp; omega

theorem enumL_getElem? {α : Type} (l : List α) (i : Nat) :
    (enumL l)[i]? = (l[i]?).map (fun a => (i, a)) := by
  simpa using enumFromN_getElem? l 0 i

theorem enumL_length {α : Type} (l : List α) : (enumL l).length = l.length :=
  enumFromN_length l 0

/-! ### Function specifications and the method generator
(`src/generate/src/contract/methods.rs`) -/

structure Param where
  name : String
  kind : ParamType
deriving Repr, DecidableEq

structure FunSpec where
  name : String
  inputs : List Param
  outputs : List Param
  constant : Bool
deriving Repr, DecidableEq

/-- Modelled from the spec: `FunctionExt::abi_signature` from
`ethcontract-common`'s `abiext` (not included under `src/`): the canonical
signature string, the name followed by the parenthesized canonical type
list. -/
def funAbiSignature (f : FunSpec) : String :=
  f.name ++ "(" ++ joinComma (f.inputs.map (fun p => p.kind.canonical)) ++ ")"

/-- `expand_inputs`: one `(identifier, mapped type)` pair per input, in
declared order, with positional name resolution. -/
def expandInputs (inputs : List Param) : Except GenError (List (String × TargetType)) :=
  collectResult
    (fun ip =>
      match typesExpand ip.2.kind with
      | .error e => .error e
      | .ok ty => .ok (inputNameToIdent ip.1 ip.2.name, ty))
    (enumL inputs)

/-- `expand_inputs_call_arg`: the resolved argument names in declared order. -/
def expandInputsCallArg (inputs : List Param) : List String :=
  (enumL inputs).map (fun ip => inputNameToIdent ip.1 ip.2.name)

/-- `expand_fn_outputs`: unit for zero outputs, the mapped type for one
output, an ordered tuple of the mapped types otherwise. -/
def expandFnOutputs (outputs : List Param) : Except GenError TargetType :=
  match outputs with
  | [] => .ok (.tup [])
  | [p] => typesExpand p.kind
  | _ =>
    match collectResult (fun p => typesExpand p.kind) outputs with
    | .error e => .error e
    | .ok ts => .ok (.tup ts)

/-- The data of one generated method binding. -/
structure GenMethod where
  name : String
  params : List (String × TargetType)
  output : TargetType
  isView : Bool
  signature : String
  callArgs : List String
deriving Repr

/-- `expand_function`: resolved name is the manual alias when present, else
the snake-cased raw name; inputs and outputs are mapped; the canonical
signature string and the mutability flag select the run-time call path. -/
def expandFunction (f : FunSpec) (alias? : Option String) : Except GenError GenMethod :=
  let name :=
    match alias? with
    | some a => a
    | none => safeIdent (toSnakeCase f.name)
  match expandInputs f.inputs with
  | .error e => .error e
  | .ok params =>
    match expandFnOutputs f.outputs with
    | .error e => .error e
    | .ok output =>
      .ok { name := name, params := params, output := output, isView := f.constant,
            signature := funAbiSignature f, callArgs := expandInputsCallArg f.inputs }

/-- The function-expansion loop of `methods::expand`: walk the functions in
order, removing each function's signature from the (cloned) manual alias map,
and return the expanded methods together with the alias entries that were
never consumed. -/
def methodsExpandGo : List FunSpec → List (String × String) →
    Except GenError (List GenMethod × List (String × String))
  | [], aliases => .ok ([], aliases)
  | f :: fs, aliases =>
    let sig := funAbiSignature f
    let alias? := (aliases.find? (fun a => decide (a.1 = sig))).map Prod.snd
    let rest := aliases.filter (fun a => ! decide (a.1 = sig))
    match expandFunction f alias? with
    | .error e => .error e
    | .ok m =>
      match methodsExpandGo fs rest with
      | .error e => .error e
      | .ok (ms, rem) => .ok (m :: ms, rem)

/-- `methods::expand`: expand every function, then fail with an
`UnknownAlias` error naming an unconsumed manual alias signature if any
remains.  An error means the whole generation pass aborts with no output. -/
def methodsExpand (funcs : List FunSpec) (aliases : List (String × String)) :
    Except GenError (List GenMethod) :=
  match methodsExpandGo funcs aliases with
  | .error e => .error e
  | .ok (ms, rem) =>
    match rem with
    | [] => .ok ms
    | (sig, _) :: _ => .error (.unknownAlias sig)

theorem methodsExpandGo_rem_spec :
    ∀ (funcs : List FunSpec) (aliases : List (String × String)) ms rem,
      methodsExpandGo funcs aliases = .ok (ms, rem) →
      ∀ a ∈ rem, a ∈ aliases ∧ ∀ f ∈ funcs, funAbiSignature f ≠ a.1 := by
  intro funcs
  induction funcs with
  | nil =>
    intro aliases ms rem h a ha
    simp only [methodsExpandGo, Except.ok.injEq, Prod.mk.injEq] at h
    rw [← h.2] at ha
    exact ⟨ha, by simp⟩
  | cons f fs ih =>
    intro aliases ms rem h a ha
    simp only [methodsExpandGo] at h
    cases hef : expandFunction f ((aliases.find? (fun a => decide (a.1 = funAbiSignature f))).map Prod.snd) with
    | error e => rw [hef] at h; exact absurd h (by simp)
    | ok m =>
      rw [hef] at h
      cases hgo : methodsExpandGo fs (aliases.filter (fun a => ! decide (a.1 = funAbiSignature f))) with
      | error e => rw [hgo] at h; exact absurd h (by simp)
      | ok p =>
        rcases p with ⟨ms', rem'⟩
        rw [hgo] at h
        simp only [Except.ok.injEq, Prod.mk.injEq] at h
        have hrem : rem = rem' := h.2.symm
        subst hrem
        rcases ih _ ms' rem hgo a ha with ⟨hmem, hfs⟩
        have hmem' := List.mem_filter.mp hmem
        refine ⟨hmem'.1, ?_⟩
        intro g hg
        rcases List.mem_cons.mp hg with hg | hg
        · subst hg
          have hne : ¬ (a.1 = funAbiSignature g) := by simpa using hmem'.2
          exact fun hh => hne hh.symm
        · exact hfs g hg

theorem methodsExpandGo_bad_alias_mem :
    ∀ (funcs : List FunSpec) (aliases : List (String × String)) (sig id : String),
      (sig, id) ∈ aliases → (∀ f ∈ funcs, funAbiSignature f ≠ sig) →
      ∀ ms rem, methodsExpandGo funcs aliases = .ok (ms, rem) → (sig, id) ∈ rem := by
  intro funcs
  induction funcs with
  | nil =>
    intro aliases sig id hmem _ ms rem h
    simp only [methodsExpandGo, Except.ok.injEq, Prod.mk.injEq] at h
    rw [← h.2]
    exact hmem
  | cons f fs ih =>
    intro aliases sig id hmem habs ms rem h
    simp only [methodsExpandGo] at h
    cases hef : expandFunction f ((aliases.find? (fun a => decide (a.1 = funAbiSignature f))).map Prod.snd) with
    | error e => rw [hef] at h; exact absurd h (by simp)
    | ok m =>
      rw [hef] at h
      cases hgo : methodsExpandGo fs (aliases.filter (fun a => ! decide (a.1 = funAbiSignature f))) with
      | error e => rw [hgo] at h; exact absurd h (by simp)
      | ok p =>
        rcases p with ⟨ms', rem'⟩
        rw [hgo] at h
        simp only [Except.ok.injEq, Prod.mk.injEq] at h
        have hrem : rem = rem' := h.2.symm
        subst hrem
        have hmemrest : (sig, id) ∈ aliases.filter (fun a => ! decide (a.1 = funAbiSignature f)) := by
          apply List.mem_filter.mpr
          refine ⟨hmem, ?_⟩
          have : funAbiSignature f ≠ sig := habs f (by simp)
          simp [this.symm]
        exact ih _ sig id hmemrest (fun g hg => habs g (by simp [hg])) ms' rem hgo

/-! ### Event specifications (`src/generate/src/contract/events.rs`) -/

structure EventParam where
  name : String
  kind : ParamType
  indexed : Bool
deriving Repr, DecidableEq

structure AbiEvent where
  name : String
  inputs : List EventParam
  anonymous : Bool
deriving Repr, DecidableEq

/-- The by-name order used by `expand_event_from_log`
(`all_events.sort_unstable_by_key(|(event, _, _)| &event.name)`). -/
def eventLE (e₁ e₂ : AbiEvent) : Prop := strLe e₁.name e₂.name = true

instance : DecidableRel eventLE := fun _ _ => inferInstanceAs (Decidable (_ = true))

instance : IsTotal AbiEvent eventLE := ⟨fun e₁ e₂ => strLe_total e₁.name e₂.name⟩

instance : IsTrans AbiEvent eventLE := ⟨fun _ _ _ h₁ h₂ => strLe_trans h₁ h₂⟩

/-- The events sorted by name.  The source uses an unspecified unstable sort
keyed on the event name; we model it with insertion sort, which produces a
by-name-sorted permutation of the input. -/
def sortEventsByName (evs : List AbiEvent) : List AbiEvent :=
  List.insertionSort eventLE evs

/-- A raw log entry: the topic list (abstract hash type `H`) plus the data
bytes. -/
structure RawLog (H : Type) where
  topics : List H
  data : List Nat
deriving Repr, DecidableEq

/-- Result of the generated `parse_log`: an `Event` enum variant (identified
by the name of the event it was generated from) carrying decoded data `D`, or
the `InvalidData` failure. -/
inductive ParseResult (D : Type) where
  | ok (variant : String) (data : D)
  | invalidData
deriving Repr, DecidableEq

/-- The non-anonymous events, in the dispatcher's sorted order
(`all_events.iter().filter(|(event, _, _)| !event.anonymous)` after the
sort). -/
def standardCandidates (evs : List AbiEvent) : List AbiEvent :=
  (sortEventsByName evs).filter (fun e => ! e.anonymous)

/-- The anonymous events, in the dispatcher's sorted order. -/
def anonymousCandidates (evs : List AbiEvent) : List AbiEvent :=
  (sortEventsByName evs).filter (fun e => e.anonymous)

/-- The `standard_event` value of the generated `parse_log`: `log.topics
.get(0).copied().map(|topic| match topic { ... })`, where the match has one
arm per non-anonymous event (in sorted order) comparing the topic with the
event's signature hash and, on a match, decoding the log — `?` turns a decode
failure into the closure's error value — and a catch-all `InvalidData` arm.
The decode collaborator (`log.decode(&Contract::artifact().abi.event(name))`)
is keyed by the event's name and is a parameter here. -/
def standardPhase {H D : Type} [DecidableEq H] (sigHash : AbiEvent → H)
    (decode : String → RawLog H → Option D) (evs : List AbiEvent) (log : RawLog H) :
    Option (Except Unit (String × D)) :=
  (log.topics.head?).map (fun topic =>
    match (standardCandidates evs).find? (fun e => decide (sigHash e = topic)) with
    | some e =>
      match decode e.name log with
      | some d => .ok (e.name, d)
      | none => .error ()
    | none => .error ())

/-- The anonymous-event cascade of the generated `parse_log`: one
`if let Ok(data) = ... { return ... }` per anonymous event, in sorted order;
the first successful decode wins. -/
def firstDecode {H D : Type} (decode : String → RawLog H → Option D) (log : RawLog H) :
    List AbiEvent → Option (String × D)
  | [] => none
  | e :: es =>
    match decode e.name log with
    | some d => some (e.name, d)
    | none => firstDecode decode log es

def anonymousPhase {H D : Type} (decode : String → RawLog H → Option D)
    (evs : List AbiEvent) (log : RawLog H) : Option (String × D) :=
  firstDecode decode log (anonymousCandidates evs)

/-- The generated `parse_log` of the `Event` enum (`expand_event_from_log`):
if the standard phase produced a success, return it; otherwise (no first
topic, no signature match, or a topic-matched decode failure) run the
anonymous cascade; if nothing decodes, fail with `InvalidData`. -/
def parseLog {H D : Type} [DecidableEq H] (sigHash : AbiEvent → H)
    (decode : String → RawLog H → Option D) (evs : List AbiEvent) (log : RawLog H) :
    ParseResult D :=
  match standardPhase sigHash decode evs log with
  | some (.ok (n, d)) => .ok n d
  | _ =>
    match anonymousPhase decode evs log with
    | some (n, d) => .ok n d
    | none => .invalidData

/-! ### The generated per-event `from_tokens` decoder (`expand_data_type`) -/

/-- The name-kind parameter pairs of an event (`expand_params`): positional
name resolution over the declared inputs. -/
def eventParams (e : AbiEvent) : List (String × ParamType) :=
  (enumL e.inputs).map (fun ip => (inputNameToIdent ip.1 ip.2.name, ip.2.kind))

inductive DetokenizeError where
  | invalidOutputType (expected got : Nat)
  | tokenError
  | iteratorExhausted
deriving Repr, DecidableEq

/-- The sequential token consumption of the generated `from_tokens` body: one
`let name = Ty::from_token(tokens.next().unwrap())?;` per parameter, in
declared order.  `iteratorExhausted` models the `unwrap` panic on a spent
iterator (unreachable behind the length guard). -/
def readParamTokens {T V : Type} (fromToken : ParamType → T → Option V) :
    List (String × ParamType) → List T → Except DetokenizeError (List (String × V))
  | [], _ => .ok []
  | (n, k) :: ps, t :: ts =>
    match fromToken k t with
    | some v =>
      match readParamTokens fromToken ps ts with
      | .error e => .error e
      | .ok rest => .ok ((n, v) :: rest)
    | none => .error .tokenError
  | _ :: _, [] => .error .iteratorExhausted

/-- The generated `Detokenize::from_tokens`: reject a token list whose length
differs from the parameter count with the `InvalidOutputType("Expected {} 
tokens, got {}")` error, then reconstruct the record positionally.  The
external `Tokenizable::from_token` conversion is a parameter. -/
def fromTokens {T V : Type} (fromToken : ParamType → T → Option V) (e : AbiEvent)
    (tokens : List T) : Except DetokenizeError (List (String × V)) :=
  if tokens.length ≠ (eventParams e).length then
    .error (.invalidOutputType (eventParams e).length tokens.length)
  else
    readParamTokens fromToken (eventParams e) tokens

/-! ### Filter builders (`expand_filters`, `expand_builder_topic_filters`) -/

/-- One generated chainable filter method on an event-stream builder: its
name, the topic slot of the inner `topic{k}` setter it forwards to, and the
mapped parameter type. -/
structure TopicFilterMethod where
  methodName : String
  slot : Nat
  paramType : TargetType
deriving Repr

/-- `expand_builder_topic_filter`: the method for the indexed parameter at
topic slot `k` is named after the parameter (`safe_ident`, no case
conversion), or `topic{k}` when the parameter is unnamed, and forwards to the
inner builder's `topic{k}` setter. -/
def expandBuilderTopicFilter (k : Nat) (p : EventParam) :
    Except GenError TopicFilterMethod :=
  match typesExpand p.kind with
  | .error e => .error e
  | .ok ty =>
    .ok { methodName := if p.name = "" then "topic" ++ natDecimal k else safeIdent p.name,
          slot := k, paramType := ty }

/-- `expand_builder_topic_filters`: enumerate the indexed parameters (the
enumeration index is the 0-based topic slot) and expand one filter method for
each. -/
def expandBuilderTopicFilters (e : AbiEvent) : Except GenError (List TopicFilterMethod) :=
  collectResult (fun kp => expandBuilderTopicFilter kp.1 kp.2)
    (enumL (e.inputs.filter (fun p => p.indexed)))

/-- `expand_filters`: one builder (identified here by its event's name) per
non-anonymous event; anonymous events get none. -/
def expandFilters (evs : List AbiEvent) :
    Except GenError (List (String × List TopicFilterMethod)) :=
  collectResult
    (fun e =>
      match expandBuilderTopicFilters e with
      | .error err => .error err
      | .ok ms => .ok (e.name, ms))
    (evs.filter (fun e => ! e.anonymous))

/-- `expand_event_enum`: the `Event` enum variants follow the incidental
iteration order of the descriptor's event collection (a `HashMap`; the
dispatcher sorts, the enum does not). -/
def expandEventEnum (evs : List AbiEvent) : List String :=
  evs.map (fun e => toPascalCase e.name)

/-! ### Deployment generation
(`src/ethcontract-generate/src/generate/deployment.rs`) -/

/-- Modelled from the spec: the `Bytecode` type of `ethcontract-common` (not
included under `src/`): a byte sequence with zero or more named library
placeholders; `isEmpty` tests for empty bytecode and `undefinedLibraries`
enumerates the distinct placeholder names in first-occurrence order. -/
structure Bytecode where
  isEmpty : Bool
  undefinedLibraries : List String
deriving Repr, DecidableEq

/-- The slice of the generation `Context` the deployment generator reads:
the contract's bytecode, its descriptor-embedded network map and the manual
deployment map from the configuration. -/
structure DeployContext where
  bytecode : Bytecode
  contractNetworks : List (Nat × Nat)
  manualNetworks : List (Nat × Nat)
  constructorInputs : Option (List Param)
deriving Repr, DecidableEq

/-- The deployment-related items the generator can emit. -/
inductive DeployItem where
  | deployedAccessor
  | librariesStruct (fields : List String)
  | builderFn (hasLibsParam : Bool) (ctorParams : List (String × TargetType))
  | deployTraitImpl
deriving Repr

/-- `expand_deployed`: the `deployed` lookup is emitted unless both the
descriptor's network map and the manual deployment map are empty; it does not
consult the bytecode. -/
def expandDeployed (cx : DeployContext) : List DeployItem :=
  if cx.contractNetworks.isEmpty && cx.manualNetworks.isEmpty then []
  else [.deployedAccessor]

/-- `expand_deploy`: nothing for empty bytecode; otherwise a `Libraries`
struct when the bytecode has undefined library placeholders, plus the
`builder` constructor function and the `Deploy` impl. -/
def expandDeploy (cx : DeployContext) : Except GenError (List DeployItem) :=
  if cx.bytecode.isEmpty then .ok []
  else
    match
      (match cx.constructorInputs with
       | some ins => expandInputs ins
       | none => .ok []) with
    | .error e => .error e
    | .ok ctorParams =>
      let libFields := cx.bytecode.undefinedLibraries.map (fun n => safeIdent (toSnakeCase n))
      let libItems : List DeployItem :=
        if libFields.isEmpty then [] else [.librariesStruct libFields]
      .ok (libItems ++ [.builderFn (! libFields.isEmpty) ctorParams, .deployTraitImpl])

/-- `deployment::expand`: the `deployed` accessor followed by the deploy
items. -/
def deploymentExpand (cx : DeployContext) : Except GenError (List DeployItem) :=
  match expandDeploy cx with
  | .error e => .error e
  | .ok items => .ok (expandDeployed cx ++ items)

/-! ### Properties of the sorted event order -/

theorem sortEventsByName_sorted (evs : List AbiEvent) :
    List.Sorted eventLE (sortEventsByName evs) :=
  List.sorted_insertionSort eventLE evs

theorem sortEventsByName_perm (evs : List AbiEvent) :
    List.Perm (sortEventsByName evs) evs :=
  List.perm_insertionSort eventLE evs

theorem mem_sortEventsByName {evs : List AbiEvent} {e : AbiEvent} :
    e ∈ sortEventsByName evs ↔ e ∈ evs :=
  (sortEventsByName_perm evs).mem_iff

theorem mem_standardCandidates {evs : List AbiEvent} {e : AbiEvent} :
    e ∈ standardCandidates evs ↔ e ∈ evs ∧ e.anonymous = false := by
  simp only [standardCandidates, List.mem_filter, mem_sortEventsByName,
    Bool.not_eq_true']

theorem mem_anonymousCandidates {evs : List AbiEvent} {e : AbiEvent} :
    e ∈ anonymousCandidates evs ↔ e ∈ evs ∧ e.anonymous = true := by
  simp only [anonymousCandidates, List.mem_filter, mem_sortEventsByName]

theorem anonymousCandidates_sorted (evs : List AbiEvent) :
    List.Sorted eventLE (anonymousCandidates evs) :=
  (sortEventsByName_sorted evs).filter _

/-- Two by-name-sorted lists that are permutations of one another and whose
names are pairwise distinct are equal: the name order pins the order down
completely. -/
theorem sorted_perm_eq_of_nodup_names :
    ∀ l₁ l₂ : List AbiEvent, List.Perm l₁ l₂ → List.Sorted eventLE l₁ →
      List.Sorted eventLE l₂ → (l₁.map AbiEvent.name).Nodup → l₁ = l₂ := by
  intro l₁
  induction l₁ with
  | nil =>
    intro l₂ hp _ _ _
    exact (hp.nil_eq).symm ▸ rfl
  | cons a t₁ ih =>
    intro l₂ hp hs₁ hs₂ hnd
    cases l₂ with
    | nil => exact absurd hp.symm.nil_eq (by simp)
    | cons b t₂ =>
      have hab : a = b := by
        have hbmem : b ∈ a :: t₁ := hp.symm.subset (List.mem_cons_self b t₂)
        have hamem : a ∈ b :: t₂ := hp.subset (List.mem_cons_self a t₁)
        rcases List.mem_cons.mp hbmem with hb | hb
        · exact hb.symm
        · rcases List.mem_cons.mp hamem with ha | ha
          · exact ha
          · -- both heads occur in the other's tail: their names are equal,
            -- contradicting name nodup
            have h₁ : eventLE a b := (List.sorted_cons.mp hs₁).1 b hb
            have h₂ : eventLE b a := (List.sorted_cons.mp hs₂).1 a ha
            have hname : a.name = b.name := strLe_antisymm h₁ h₂
            have : a.name ∈ t₁.map AbiEvent.name := by
              rw [hname]
              exact List.mem_map_of_mem AbiEvent.name hb
            have hnd' := (List.nodup_cons.mp hnd).1
            exact absurd this hnd'
      subst hab
      have hpt : List.Perm t₁ t₂ := hp.cons_inv
      have := ih t₂ hpt (List.sorted_cons.mp hs₁).2 (List.sorted_cons.mp hs₂).2
        (List.nodup_cons.mp hnd).2
      rw [this]

theorem sortEventsByName_perm_invariant {evs₁ evs₂ : List AbiEvent}
    (hperm : List.Perm evs₁ evs₂) (hnd : (evs₁.map AbiEvent.name).Nodup) :
    sortEventsByName evs₁ = sortEventsByName evs₂ := by
  apply sorted_perm_eq_of_nodup_names
  · exact (sortEventsByName_perm evs₁).trans (hperm.trans (sortEventsByName_perm evs₂).symm)
  · exact sortEventsByName_sorted evs₁
  · exact sortEventsByName_sorted evs₂
  · exact ((sortEventsByName_perm evs₁).map AbiEvent.name).nodup_iff.mpr hnd

/-! ### Properties of the anonymous decode cascade -/

theorem firstDecode_eq_none_iff {H D : Type} (decode : String → RawLog H → Option D)
    (log : RawLog H) :
    ∀ l : List AbiEvent, firstDecode decode log l = none ↔ ∀ e ∈ l, decode e.name log = none := by
  intro l
  induction l with
  | nil => simp [firstDecode]
  | cons e es ih =>
    simp only [firstDecode]
    cases hd : decode e.name log with
    | some d => simp [hd]
    | none => simpa [hd] using ih

theorem firstDecode_some_spec {H D : Type} (decode : String → RawLog H → Option D)
    (log : RawLog H) :
    ∀ l : List AbiEvent, List.Sorted eventLE l →
      ∀ n d, firstDecode decode log l = some (n, d) →
        ∃ e ∈ l, e.name = n ∧ decode e.name log = some d ∧
          ∀ e' ∈ l, (decode e'.name log).isSome → strLe n e'.name = true := by
  intro l
  induction l with
  | nil => intro _ n d h; simp [firstDecode] at h
  | cons e es ih =>
    intro hs n d h
    simp only [firstDecode] at h
    cases hd : decode e.name log with
    | some d₀ =>
      rw [hd] at h
      simp only [Option.some.injEq, Prod.mk.injEq] at h
      refine ⟨e, List.mem_cons_self e es, h.1, by rw [hd, h.2], ?_⟩
      intro e' he' _
      rcases List.mem_cons.mp he' with he' | he'
      · subst he'; rw [← h.1]; exact strLe_refl _
      · rw [← h.1]
        exact (List.sorted_cons.mp hs).1 e' he'
    | none =>
      rw [hd] at h
      rcases ih (List.sorted_cons.mp hs).2 n d h with ⟨e₀, he₀, hn₀, hd₀, hmin₀⟩
      refine ⟨e₀, List.mem_cons_of_mem e he₀, hn₀, hd₀, ?_⟩
      intro e' he' hsome
      rcases List.mem_cons.mp he' with he' | he'
      · subst he'
        rw [hd] at hsome
        simp at hsome
      · exact hmin₀ e' he' hsome

theorem firstDecode_ne_none_of_mem {H D : Type} (decode : String → RawLog H → Option D)
    (log : RawLog H) {l : List AbiEvent} {e : AbiEvent} (he : e ∈ l)
    (hd : (decode e.name log).isSome) : firstDecode decode log l ≠ none := by
  intro hnone
  have := (firstDecode_eq_none_iff decode log l).mp hnone e he
  rw [this] at hd
  simp at hd

/-! ### Further helper lemmas -/

theorem eventParams_length (e : AbiEvent) : (eventParams e).length = e.inputs.length := by
  simp [eventParams, enumL_length]

theorem readParamTokens_eq_zip {T V : Type} (ft : ParamType → T → Option V) :
    ∀ (ps : List (String × ParamType)) (ts : List T), ps.length = ts.length →
      readParamTokens ft ps ts =
        collectResult
          (fun pt =>
            match ft pt.1.2 pt.2 with
            | some v => .ok (pt.1.1, v)
            | none => .error DetokenizeError.tokenError)
          (ps.zip ts) := by
  intro ps
  induction ps with
  | nil =>
    intro ts _
    simp [readParamTokens, collectResult]
  | cons p ps ih =>
    intro ts hlen
    cases ts with
    | nil => simp at hlen
    | cons t ts =>
      rcases p with ⟨n, k⟩
      simp only [List.length_cons, Nat.succ.injEq] at hlen
      simp only [readParamTokens, List.zip_cons_cons, collectResult]
      cases hft : ft k t with
      | none => rfl
      | some v =>
        rw [ih ts hlen]
        simp only [List.zip]
        generalize collectResult
          (fun pt =>
            match ft pt.1.2 pt.2 with
            | some v => Except.ok (pt.1.1, v)
            | none => Except.error DetokenizeError.tokenError)
          (List.zipWith Prod.mk ps ts) = r
        cases r with
        | error e => rfl
        | ok bs => rfl

theorem collectResult_ok_map {ε α β γ : Type} (f : α → Except ε β) (g : β → γ) (h : α → γ)
    (hgh : ∀ a b, f a = .ok b → g b = h a) :
    ∀ (l : List α) (ys : List β), collectResult f l = .ok ys → ys.map g = l.map h := by
  intro l
  induction l with
  | nil => intro ys hy; simp [collectResult] at hy; simp [← hy]
  | cons a as ih =>
    intro ys hy
    simp only [collectResult] at hy
    cases hfa : f a with
    | error e => rw [hfa] at hy; exact absurd hy (by simp)
    | ok b =>
      rw [hfa] at hy
      cases hrest : collectResult f as with
      | error e => rw [hrest] at hy; exact absurd hy (by simp)
      | ok bs =>
        rw [hrest] at hy
        simp only [Except.ok.injEq] at hy
        subst hy
        simp [hgh a b hfa, ih bs hrest]

/-! ### Concrete fixtures used by the witnesses and counterexamples -/

def transferEvent : AbiEvent :=
  { name := "Transfer",
    inputs := [ { name := "from", kind := .address, indexed := true },
                { name := "to", kind := .address, indexed := true },
                { name := "amount", kind := .uint 256, indexed := false } ],
    anonymous := false }

def anonParamEvent : AbiEvent :=
  { name := "E",
    inputs := [ { name := "", kind := .address, indexed := true } ],
    anonymous := false }

def funTwoOutputs : FunSpec :=
  { name := "getPair", inputs := [{ name := "owner", kind := .address }],
    outputs := [{ name := "", kind := .bool }, { name := "", kind := .address }],
    constant := true }

def fooFun : FunSpec := { name := "foo", inputs := [], outputs := [], constant := false }

def evA : AbiEvent := { name := "A", inputs := [], anonymous := false }

def evB : AbiEvent := { name := "B", inputs := [], anonymous := true }

def evC : AbiEvent := { name := "C", inputs := [], anonymous := true }

def evD : AbiEvent := { name := "D", inputs := [], anonymous := true }

/-- Signature-hash collaborator for the fixtures: event `A` hashes to `1`,
everything else to `2`. -/
def sig0 : AbiEvent → Nat := fun e => if e.name = "A" then 1 else 2

/-- Decode collaborator for the C1 fixtures: only event `B` decodes. -/
def dec0 : String → RawLog Nat → Option Nat := fun n _ => if n = "B" then some 7 else none

/-- Decode collaborator for the C3/C9 fixtures: events `C` and `D` decode. -/
def dec1 : String → RawLog Nat → Option Nat :=
  fun n _ => if n = "C" then some 1 else if n = "D" then some 2 else none

/-- A log whose first topic is event `A`'s signature hash. -/
def log0 : RawLog Nat := { topics := [1], data := [] }

/-- A log with no topics at all. -/
def log1 : RawLog Nat := { topics := [], data := [] }

def cxEmptyBytecode : DeployContext :=
  { bytecode := { isEmpty := true, undefinedLibraries := [] },
    contractNetworks := [(4, 10)], manualNetworks := [], constructorInputs := none }

/-! ## Claim theorems -/

/-- Claim C7: name resolution is a pure deterministic function (it is a Lean
function of `(index, name)` alone): an empty raw name at position `i` yields
the positional placeholder `p{i}`; a non-empty raw name is deterministically
converted to snake case; and a converted name that collides with a reserved
word of the target language is escaped by the fixed transform appending a
trailing underscore, while a non-colliding one is left as converted. -/
theorem name_resolution_spec (i : Nat) (n : String) :
    inputNameToIdent i "" = "p" ++ natDecimal i
    ∧ (n ≠ "" → inputNameToIdent i n = safeIdent (toSnakeCase n))
    ∧ (n ≠ "" → toSnakeCase n ∈ rustKeywords → inputNameToIdent i n = toSnakeCase n ++ "_")
    ∧ (n ≠ "" → toSnakeCase n ∉ rustKeywords → inputNameToIdent i n = toSnakeCase n) := by
  refine ⟨inputNameToIdent_empty i, ?_, ?_, ?_⟩
  · intro hn
    simp [inputNameToIdent, hn]
  · intro hn hk
    simp [inputNameToIdent, hn, safeIdent, hk]
  · intro hn hk
    simp [inputNameToIdent, hn, safeIdent, hk]

/-- Witness for C7 at concrete inputs: position `0` with an empty name gives
`p0`, the keyword `self` escapes to `self_`, and `CamelCase1` normalizes to
`camel_case_1`. -/
theorem name_resolution_spec_witness :
    inputNameToIdent 0 "" = "p" ++ natDecimal 0
    ∧ inputNameToIdent 0 "self" = toSnakeCase "self" ++ "_"
    ∧ inputNameToIdent 7 "CamelCase1" = toSnakeCase "CamelCase1" := by
  refine ⟨(name_resolution_spec 0 "self").1, ?_, ?_⟩
  · exact (name_resolution_spec 0 "self").2.2.1 (by decide) (by decide)
  · exact (name_resolution_spec 7 "CamelCase1").2.2.2 (by decide) (by decide)

/-- Claim C6: a generated method has exactly one parameter per declared
input, and its return shape is unit (the empty tuple) for zero outputs, the
single mapped output type for one output, and the ordered tuple of the mapped
output types, in declared order, for two or more outputs. -/
theorem method_shape_spec (f : FunSpec) (alias? : Option String) (m : GenMethod)
    (h : expandFunction f alias? = .ok m) :
    m.params.length = f.inputs.length
    ∧ (f.outputs = [] → m.output = .tup [])
    ∧ (∀ p, f.outputs = [p] → typesExpand p.kind = .ok m.output)
    ∧ (2 ≤ f.outputs.length →
        ∃ ts, collectResult (fun p => typesExpand p.kind) f.outputs = .ok ts
          ∧ m.output = .tup ts ∧ ts.length = f.outputs.length
          ∧ ∀ (i : Nat) (p : Param), f.outputs[i]? = some p →
              ∃ t, ts[i]? = some t ∧ typesExpand p.kind = .ok t) := by
  simp only [expandFunction] at h
  cases hin : expandInputs f.inputs with
  | error e => rw [hin] at h; exact absurd h (by simp)
  | ok params =>
    rw [hin] at h
    cases hout : expandFnOutputs f.outputs with
    | error e => rw [hout] at h; exact absurd h (by simp)
    | ok output =>
      rw [hout] at h
      simp only [Except.ok.injEq] at h
      subst h
      refine ⟨?_, ?_, ?_, ?_⟩
      · have := collectResult_ok_length _ _ _ hin
        simpa [enumL_length] using this
      · intro hnil
        rw [hnil] at hout
        simp only [expandFnOutputs, Except.ok.injEq] at hout
        simp [← hout]
      · intro p hp
        rw [hp] at hout
        simpa [expandFnOutputs] using hout
      · intro hlen
        cases houts : f.outputs with
        | nil => rw [houts] at hlen; simp at hlen
        | cons p rest =>
          cases hrest : rest with
          | nil => rw [houts, hrest] at hlen; simp at hlen
          | cons q rest' =>
            rw [houts, hrest] at hout
            simp only [expandFnOutputs] at hout
            cases hcr : collectResult (fun p => typesExpand p.kind) (p :: q :: rest') with
            | error e => rw [hcr] at hout; exact absurd hout (by simp)
            | ok ts =>
              rw [hcr] at hout
              simp only [Except.ok.injEq] at hout
              refine ⟨ts, rfl, by simp [← hout], ?_, ?_⟩
              · exact collectResult_ok_length _ _ _ hcr
              · intro i pp hpp
                rcases collectResult_ok_get _ _ _ hcr i pp hpp with ⟨t, ht, hft⟩
                exact ⟨t, ht, hft⟩

/-- The method generated for `funTwoOutputs`. -/
def getPairMethod : GenMethod :=
  { name := "get_pair", params := [("owner", TargetType.address)],
    output := .tup [.bool, .address], isView := true,
    signature := "getPair(address)", callArgs := ["owner"] }

/-- Witness for C6 at a concrete two-output view function. -/
theorem method_shape_spec_witness :
    getPairMethod.params.length = funTwoOutputs.inputs.length
    ∧ (funTwoOutputs.outputs = [] → getPairMethod.output = .tup [])
    ∧ (∀ p, funTwoOutputs.outputs = [p] → typesExpand p.kind = .ok getPairMethod.output)
    ∧ (2 ≤ funTwoOutputs.outputs.length →
        ∃ ts, collectResult (fun p => typesExpand p.kind) funTwoOutputs.outputs = .ok ts
          ∧ getPairMethod.output = .tup ts ∧ ts.length = funTwoOutputs.outputs.length
          ∧ ∀ (i : Nat) (p : Param), funTwoOutputs.outputs[i]? = some p →
              ∃ t, ts[i]? = some t ∧ typesExpand p.kind = .ok t) :=
  method_shape_spec funTwoOutputs none getPairMethod rfl

/-- Claim C5: the generated `from_tokens` rejects a token list whose length
differs from the event's parameter count with the token-count-mismatch error
(carrying the expected and the actual count), and on a list of exactly the
parameter count it reconstructs the record by consuming the tokens
positionally in declared parameter order (equivalently, by converting the
positional zip of parameters and tokens, stopping at the first failure). -/
theorem from_tokens_spec {T V : Type} (fromToken : ParamType → T → Option V)
    (e : AbiEvent) (tokens : List T) :
    (tokens.length ≠ e.inputs.length →
      fromTokens fromToken e tokens =
        .error (.invalidOutputType e.inputs.length tokens.length))
    ∧ (tokens.length = e.inputs.length →
        fromTokens fromToken e tokens =
          collectResult
            (fun pt =>
              match fromToken pt.1.2 pt.2 with
              | some v => .ok (pt.1.1, v)
              | none => .error DetokenizeError.tokenError)
            ((eventParams e).zip tokens)) := by
  constructor
  · intro hne
    rw [fromTokens, if_pos (by rw [eventParams_length]; exact hne), eventParams_length]
  · intro heq
    rw [fromTokens, if_neg (by rw [eventParams_length]; simp [heq])]
    exact readParamTokens_eq_zip fromToken (eventParams e) tokens
      (by rw [eventParams_length]; exact heq.symm)

/-- Witness for C5 on the `Transfer` event: one token instead of three is
rejected with the count mismatch, and exactly three tokens decode
positionally. -/
theorem from_tokens_spec_witness :
    fromTokens (fun (_ : ParamType) (t : Nat) => some t) transferEvent [5] =
      .error (.invalidOutputType 3 1)
    ∧ fromTokens (fun (_ : ParamType) (t : Nat) => some t) transferEvent [5, 6, 7] =
        collectResult
          (fun pt =>
            match some pt.2 with
            | some v => .ok (pt.1.1, v)
            | none => .error DetokenizeError.tokenError)
          ((eventParams transferEvent).zip [5, 6, 7]) :=
  ⟨(from_tokens_spec (fun _ t => some t) transferEvent [5]).1 (by decide),
   (from_tokens_spec (fun _ t => some t) transferEvent [5, 6, 7]).2 (by decide)⟩

/-- Claim C4: a manual alias whose signature is absent from the descriptor's
function set makes generation fail; the failure is an error return with no
methods emitted at all (`Except.error` carries no output), and whenever the
per-function expansion itself succeeded, the error is `UnknownAlias` naming
an offending (unconsumed, absent-signature) alias signature. -/
theorem unknown_alias_aborts (funcs : List FunSpec) (aliases : List (String × String))
    (sig id : String) (hmem : (sig, id) ∈ aliases)
    (habs : ∀ f ∈ funcs, funAbiSignature f ≠ sig) :
    (∃ e, methodsExpand funcs aliases = .error e)
    ∧ (∀ ms rem, methodsExpandGo funcs aliases = .ok (ms, rem) →
        ∃ s, (∃ i, (s, i) ∈ aliases) ∧ (∀ f ∈ funcs, funAbiSignature f ≠ s)
          ∧ methodsExpand funcs aliases = .error (.unknownAlias s)) := by
  cases hgo : methodsExpandGo funcs aliases with
  | error e =>
    constructor
    · exact ⟨e, by simp [methodsExpand, hgo]⟩
    · intro ms rem h
      exact absurd h (by simp)
  | ok p =>
    rcases p with ⟨ms, rem⟩
    have hbad : (sig, id) ∈ rem :=
      methodsExpandGo_bad_alias_mem funcs aliases sig id hmem habs ms rem hgo
    cases hrem : rem with
    | nil => rw [hrem] at hbad; simp at hbad
    | cons a rest =>
      rcases a with ⟨s, i⟩
      have hspec := methodsExpandGo_rem_spec funcs aliases ms rem hgo (s, i)
        (by rw [hrem]; exact List.mem_cons_self _ _)
      have hres : methodsExpand funcs aliases = .error (.unknownAlias s) := by
        simp [methodsExpand, hgo, hrem]
      constructor
      · exact ⟨.unknownAlias s, hres⟩
      · intro ms' rem' h
        exact ⟨s, ⟨i, hspec.1⟩, hspec.2, hres⟩

/-- Witness for C4: a single zero-argument function `foo` and a manual alias
for the absent signature `bad()` make generation fail. -/
theorem unknown_alias_aborts_witness :
    ∃ e, methodsExpand [fooFun] [("bad()", "renamed")] = .error e :=
  (unknown_alias_aborts [fooFun] [("bad()", "renamed")] "bad()" "renamed"
    (by decide) (by decide)).1

/-- Claim C8: filter builders are generated exactly for the non-anonymous
events (anonymous ones get none), and each builder exposes exactly one
chainable filter method per indexed parameter of its event, the method for
the `k`-th indexed parameter (0-based, counting only indexed parameters in
declaration order) forwarding to topic slot `k`, typed at the parameter's
mapped type and named after it (`topic{k}` when the parameter is unnamed). -/
theorem filter_builders_spec (evs : List AbiEvent)
    (bs : List (String × List TopicFilterMethod)) (h : expandFilters evs = .ok bs) :
    bs.map Prod.fst = (evs.filter (fun e => ! e.anonymous)).map AbiEvent.name
    ∧ ∀ (i : Nat) (e : AbiEvent), (evs.filter (fun e => ! e.anonymous))[i]? = some e →
        ∃ ms, bs[i]? = some (e.name, ms)
          ∧ ms.length = (e.inputs.filter (fun p => p.indexed)).length
          ∧ ∀ (k : Nat) (m : TopicFilterMethod), ms[k]? = some m →
              m.slot = k
              ∧ ∃ p, (e.inputs.filter (fun p => p.indexed))[k]? = some p
                  ∧ typesExpand p.kind = .ok m.paramType
                  ∧ m.methodName =
                      (if p.name = "" then "topic" ++ natDecimal k else safeIdent p.name) := by
  constructor
  · refine collectResult_ok_map _ Prod.fst AbiEvent.name ?_ _ _ h
    intro e b hb
    cases hms : expandBuilderTopicFilters e with
    | error err => rw [hms] at hb; exact absurd hb (by simp)
    | ok ms =>
      rw [hms] at hb
      simp only [Except.ok.injEq] at hb
      rw [← hb]
  · intro i e he
    rcases collectResult_ok_get _ _ _ h i e he with ⟨b, hb, hfb⟩
    cases hms : expandBuilderTopicFilters e with
    | error err => rw [hms] at hfb; exact absurd hfb (by simp)
    | ok ms =>
      rw [hms] at hfb
      simp only [Except.ok.injEq] at hfb
      refine ⟨ms, by rw [← hfb] at hb; exact hb, ?_, ?_⟩
      · have := collectResult_ok_length _ _ _ hms
        simpa [enumL_length] using this
      · intro k m hm
        have hklt : k < ms.length := by
          rcases List.getElem?_eq_some.mp hm with ⟨hk, _⟩
          exact hk
        have hlen : ms.length = (e.inputs.filter (fun p => p.indexed)).length := by
          have := collectResult_ok_length _ _ _ hms
          simpa [enumL_length] using this
        have hkp : ∃ p, (e.inputs.filter (fun p => p.indexed))[k]? = some p := by
          have : k < (e.inputs.filter (fun p => p.indexed)).length := hlen ▸ hklt
          exact ⟨_, List.getElem?_eq_getElem this⟩
        rcases hkp with ⟨p, hp⟩
        have henum : (enumL (e.inputs.filter (fun p => p.indexed)))[k]? = some (k, p) := by
          rw [enumL_getElem?, hp]
          rfl
        rcases collectResult_ok_get _ _ _ hms k (k, p) henum with ⟨m', hm', hfm'⟩
        rw [hm] at hm'
        simp only [Option.some.injEq] at hm'
        subst hm'
        simp only [expandBuilderTopicFilter] at hfm'
        cases hty : typesExpand p.kind with
        | error err => rw [hty] at hfm'; exact absurd hfm' (by simp)
        | ok ty =>
          rw [hty] at hfm'
          simp only [Except.ok.injEq] at hfm'
          rw [← hfm']
          exact ⟨rfl, p, hp, hty, rfl⟩

/-- The filter builders generated for the `Transfer` fixture. -/
def transferBuilders : List (String × List TopicFilterMethod) :=
  [("Transfer",
    [{ methodName := "from", slot := 0, paramType := .address },
     { methodName := "to", slot := 1, paramType := .address }])]

/-- Witness for C8 on `Transfer(address indexed from, address indexed to,
uint256 amount)`: exactly one builder, with two filter methods bound to topic
slots 0 and 1. -/
theorem filter_builders_spec_witness :
    transferBuilders.map Prod.fst =
        ([transferEvent].filter (fun e => ! e.anonymous)).map AbiEvent.name
    ∧ ∀ (i : Nat) (e : AbiEvent), ([transferEvent].filter (fun e => ! e.anonymous))[i]? = some e →
        ∃ ms, transferBuilders[i]? = some (e.name, ms)
          ∧ ms.length = (e.inputs.filter (fun p => p.indexed)).length
          ∧ ∀ (k : Nat) (m : TopicFilterMethod), ms[k]? = some m →
              m.slot = k
              ∧ ∃ p, (e.inputs.filter (fun p => p.indexed))[k]? = some p
                  ∧ typesExpand p.kind = .ok m.paramType
                  ∧ m.methodName =
                      (if p.name = "" then "topic" ++ natDecimal k else safeIdent p.name) :=
  filter_builders_spec [transferEvent] transferBuilders rfl

/-- Claim C10: the filter method generated for an unnamed indexed parameter
at topic slot `k` is named `topic{k}` and bound to slot `k`; it is never the
`p{index}` positional placeholder used elsewhere for unnamed parameters. -/
theorem unnamed_indexed_filter_method_name (e : AbiEvent) (k : Nat) (p : EventParam)
    (ms : List TopicFilterMethod)
    (hp : (e.inputs.filter (fun q => q.indexed))[k]? = some p)
    (hname : p.name = "")
    (hok : expandBuilderTopicFilters e = .ok ms) :
    ∃ m, ms[k]? = some m ∧ m.methodName = "topic" ++ natDecimal k ∧ m.slot = k
      ∧ ∀ j : Nat, m.methodName ≠ "p" ++ natDecimal j := by
  have henum : (enumL (e.inputs.filter (fun q => q.indexed)))[k]? = some (k, p) := by
    rw [enumL_getElem?, hp]
    rfl
  rcases collectResult_ok_get _ _ _ hok k (k, p) henum with ⟨m, hm, hfm⟩
  simp only [expandBuilderTopicFilter] at hfm
  cases hty : typesExpand p.kind with
  | error err => rw [hty] at hfm; exact absurd hfm (by simp)
  | ok ty =>
    rw [hty] at hfm
    simp only [Except.ok.injEq] at hfm
    refine ⟨m, hm, ?_, ?_, ?_⟩
    · rw [← hfm]; simp [hname]
    · rw [← hfm]
    · intro j hcontra
      have hmn : m.methodName = "topic" ++ natDecimal k := by rw [← hfm]; simp [hname]
      rw [hmn] at hcontra
      have := congrArg String.data hcontra
      rw [String.data_append, String.data_append] at this
      have ht : ("topic" : String).data = 't' :: "opic".data := rfl
      have hpd : ("p" : String).data = ['p'] := rfl
      rw [ht, hpd] at this
      simp at this

/-- Witness for C10: the single unnamed indexed parameter of the fixture
event gets the filter method `topic0`. -/
theorem unnamed_indexed_filter_method_name_witness :
    ∃ m, ([{ methodName := "topic0", slot := 0, paramType := TargetType.address }]
        : List TopicFilterMethod)[0]? = some m
      ∧ m.methodName = "topic" ++ natDecimal 0 ∧ m.slot = 0
      ∧ ∀ j : Nat, m.methodName ≠ "p" ++ natDecimal j :=
  unnamed_indexed_filter_method_name anonParamEvent 0
    { name := "", kind := .address, indexed := true }
    [{ methodName := "topic0", slot := 0, paramType := .address }]
    rfl rfl rfl

/-- Counterexample to claim C2 as stated: with empty bytecode but a non-empty
descriptor network map, the deployment generator still emits the
deployed-address accessor (`expand_deployed` never consults the bytecode), so
the output is not empty. -/
theorem empty_bytecode_counterexample :
    cxEmptyBytecode.bytecode.isEmpty = true
    ∧ deploymentExpand cxEmptyBytecode = .ok [DeployItem.deployedAccessor]
    ∧ ¬ deploymentExpand cxEmptyBytecode = .ok [] := by
  have h2 : deploymentExpand cxEmptyBytecode = .ok [DeployItem.deployedAccessor] := rfl
  refine ⟨rfl, h2, ?_⟩
  rw [h2]
  intro h
  have := Except.ok.inj h
  simp at this

/-- Claim C2 (amended): empty bytecode suppresses all deploy code — no
`builder` operation, no `Libraries` aggregate, no `Deploy` impl
(`expand_deploy` emits nothing) — but the deployed-address accessor is
independent of the bytecode: it is emitted whenever either network map is
non-empty, and the output is completely empty only when both maps are also
empty. -/
theorem empty_bytecode_no_deploy_code (cx : DeployContext)
    (h : cx.bytecode.isEmpty = true) :
    expandDeploy cx = .ok []
    ∧ deploymentExpand cx = .ok (expandDeployed cx)
    ∧ (cx.contractNetworks = [] → cx.manualNetworks = [] → deploymentExpand cx = .ok [])
    ∧ ((cx.contractNetworks ≠ [] ∨ cx.manualNetworks ≠ []) →
        deploymentExpand cx = .ok [DeployItem.deployedAccessor]) := by
  have h1 : expandDeploy cx = .ok [] := by simp [expandDeploy, h]
  have h2 : deploymentExpand cx = .ok (expandDeployed cx) := by
    simp [deploymentExpand, h1]
  refine ⟨h1, h2, ?_, ?_⟩
  · intro hc hm
    rw [h2]
    simp [expandDeployed, hc, hm]
  · intro hne
    rw [h2]
    have : ¬ (cx.contractNetworks.isEmpty && cx.manualNetworks.isEmpty) = true := by
      rcases hne with hne | hne
      · simp [List.isEmpty_iff, hne]
      · simp [List.isEmpty_iff, hne]
    simp [expandDeployed, this]

/-- Witness for the amended C2 at the concrete context with empty bytecode
and one descriptor network entry. -/
theorem empty_bytecode_no_deploy_code_witness :
    expandDeploy cxEmptyBytecode = .ok []
    ∧ deploymentExpand cxEmptyBytecode = .ok (expandDeployed cxEmptyBytecode)
    ∧ (cxEmptyBytecode.contractNetworks = [] → cxEmptyBytecode.manualNetworks = [] →
        deploymentExpand cxEmptyBytecode = .ok [])
    ∧ ((cxEmptyBytecode.contractNetworks ≠ [] ∨ cxEmptyBytecode.manualNetworks ≠ []) →
        deploymentExpand cxEmptyBytecode = .ok [DeployItem.deployedAccessor]) :=
  empty_bytecode_no_deploy_code cxEmptyBytecode rfl

/-- Counterexample to claim C1 as stated: the log's first topic is the
signature hash of the non-anonymous event `A`, decoding `A` fails, and yet
`parse_log` does not return `InvalidData` — it falls through to the anonymous
candidates and returns event `B`'s variant. -/
theorem topic_match_decode_failure_counterexample :
    log0.topics.head? = some (sig0 evA)
    ∧ evA.anonymous = false
    ∧ evA ∈ [evA, evB]
    ∧ dec0 evA.name log0 = none
    ∧ evB.anonymous = true
    ∧ parseLog sig0 dec0 [evA, evB] log0 = ParseResult.ok "B" 7
    ∧ parseLog sig0 dec0 [evA, evB] log0 ≠ ParseResult.invalidData := by
  refine ⟨rfl, rfl, by decide, rfl, rfl, rfl, by decide⟩

/-- Claim C1 (amended): when the first topic matches a non-anonymous event's
signature hash and the decode of that event fails, the dispatcher does not
return that event (and attempts no other non-anonymous candidate); instead it
falls through to the anonymous candidates, returning `InvalidData` exactly
when no anonymous event decodes, and otherwise the lexicographically-first
decodable anonymous event's variant. -/
theorem topic_match_decode_failure_falls_through {H D : Type} [DecidableEq H]
    (sigHash : AbiEvent → H) (decode : String → RawLog H → Option D)
    (evs : List AbiEvent) (log : RawLog H) (t : H) (e : AbiEvent)
    (ht : log.topics.head? = some t)
    (hfind : (standardCandidates evs).find? (fun e' => decide (sigHash e' = t)) = some e)
    (hdec : decode e.name log = none) :
    (parseLog sigHash decode evs log = ParseResult.invalidData ↔
      ∀ e' ∈ evs, e'.anonymous = true → decode e'.name log = none)
    ∧ (∀ (n : String) (d : D), parseLog sigHash decode evs log = ParseResult.ok n d →
        ∃ e', e' ∈ evs ∧ e'.anonymous = true ∧ e'.name = n ∧ decode e'.name log = some d
          ∧ ∀ e'' ∈ evs, e''.anonymous = true → (decode e''.name log).isSome →
              strLe n e''.name = true) := by
  have hstd : standardPhase sigHash decode evs log = some (.error ()) := by
    simp [standardPhase, ht, hfind, hdec]
  have hbranch : parseLog sigHash decode evs log =
      (match anonymousPhase decode evs log with
       | some (n, d) => ParseResult.ok n d
       | none => ParseResult.invalidData) := by
    rw [parseLog, hstd]
  constructor
  · rw [hbranch]
    cases hanon : anonymousPhase decode evs log with
    | some nd =>
      rcases nd with ⟨n, d⟩
      have hfalse : ¬ (∀ e' ∈ evs, e'.anonymous = true → decode e'.name log = none) := by
        rcases firstDecode_some_spec decode log _ (anonymousCandidates_sorted evs) n d hanon with
          ⟨e₀, he₀, hname₀, hdec₀, hmin₀⟩
        rcases mem_anonymousCandidates.mp he₀ with ⟨hmem₀, hanon₀⟩
        intro hall
        rw [hall e₀ hmem₀ hanon₀] at hdec₀
        exact absurd hdec₀ (by simp)
      constructor
      · intro hcontra
        exact absurd hcontra (by simp)
      · intro hall
        exact absurd hall hfalse
    | none =>
      have hall : ∀ e' ∈ evs, e'.anonymous = true → decode e'.name log = none := by
        intro e' he' ha'
        exact (firstDecode_eq_none_iff decode log (anonymousCandidates evs)).mp hanon e'
          (mem_anonymousCandidates.mpr ⟨he', ha'⟩)
      constructor
      · intro _
        exact hall
      · intro _
        rfl
  · intro n d hok
    rw [hbranch] at hok
    cases hanon : anonymousPhase decode evs log with
    | none => rw [hanon] at hok; exact absurd hok (by simp)
    | some nd =>
      rcases nd with ⟨n', d'⟩
      rw [hanon] at hok
      simp only [ParseResult.ok.injEq] at hok
      rcases hok with ⟨hn, hd'⟩
      subst hn
      subst hd'
      rcases firstDecode_some_spec decode log _ (anonymousCandidates_sorted evs) n' d' hanon
        with ⟨e₀, he₀, hname₀, hdec₀, hmin₀⟩
      rcases mem_anonymousCandidates.mp he₀ with ⟨hmem₀, hanon₀⟩
      refine ⟨e₀, hmem₀, hanon₀, hname₀, hdec₀, ?_⟩
      intro e'' he'' ha'' hs''
      exact hmin₀ e'' (mem_anonymousCandidates.mpr ⟨he'', ha''⟩) hs''

/-- Witness for the amended C1 at the concrete fixture: topic matches `A`,
`A` fails to decode, and the dispatcher behaves as the fall-through
characterization states. -/
theorem topic_match_decode_failure_falls_through_witness :
    (parseLog sig0 dec0 [evA, evB] log0 = ParseResult.invalidData ↔
      ∀ e' ∈ [evA, evB], e'.anonymous = true → dec0 e'.name log0 = none)
    ∧ (∀ (n : String) (d : Nat), parseLog sig0 dec0 [evA, evB] log0 = ParseResult.ok n d →
        ∃ e', e' ∈ [evA, evB] ∧ e'.anonymous = true ∧ e'.name = n ∧ dec0 e'.name log0 = some d
          ∧ ∀ e'' ∈ [evA, evB], e''.anonymous = true → (dec0 e''.name log0).isSome →
              strLe n e''.name = true) :=
  topic_match_decode_failure_falls_through sig0 dec0 [evA, evB] log0 1 evA rfl (by decide) rfl

/-- Claim C3: whenever the dispatcher reaches the anonymous cascade (the
standard phase produced no success) and the log decodes as two distinct
anonymous events, the dispatcher tries the anonymous events in ascending name
order and returns the decodable anonymous event whose name sorts first — in
particular never the variant of the event whose name sorts later. -/
theorem anonymous_decode_lex_first {H D : Type} [DecidableEq H]
    (sigHash : AbiEvent → H) (decode : String → RawLog H → Option D)
    (evs : List AbiEvent) (log : RawLog H) (e₁ e₂ : AbiEvent)
    (h₁ : e₁ ∈ evs) (h₂ : e₂ ∈ evs)
    (ha₁ : e₁.anonymous = true) (ha₂ : e₂.anonymous = true)
    (hd₁ : (decode e₁.name log).isSome) (hd₂ : (decode e₂.name log).isSome)
    (hlt : strLt e₁.name e₂.name = true)
    (hstd : ∀ (n : String) (d : D),
      standardPhase sigHash decode evs log ≠ some (.ok (n, d))) :
    ∃ e d, parseLog sigHash decode evs log = ParseResult.ok e.name d
      ∧ e ∈ evs ∧ e.anonymous = true ∧ decode e.name log = some d
      ∧ (∀ e' ∈ evs, e'.anonymous = true → (decode e'.name log).isSome →
          strLe e.name e'.name = true)
      ∧ e.name ≠ e₂.name := by
  have hbranch : parseLog sigHash decode evs log =
      (match anonymousPhase decode evs log with
       | some (n, d) => ParseResult.ok n d
       | none => ParseResult.invalidData) := by
    rcases hsp : standardPhase sigHash decode evs log with _ | x
    · rw [parseLog, hsp]
    · rcases x with x | x
      · rw [parseLog, hsp]
      · rcases x with ⟨n, d⟩
        exact absurd hsp (hstd n d)
  have he₁mem : e₁ ∈ anonymousCandidates evs := mem_anonymousCandidates.mpr ⟨h₁, ha₁⟩
  cases hanon : anonymousPhase decode evs log with
  | none =>
    exact absurd hanon (firstDecode_ne_none_of_mem decode log he₁mem hd₁)
  | some nd =>
    rcases nd with ⟨n, d⟩
    rcases firstDecode_some_spec decode log _ (anonymousCandidates_sorted evs) n d hanon with
      ⟨e₀, he₀, hname₀, hdec₀, hmin₀⟩
    rcases mem_anonymousCandidates.mp he₀ with ⟨hmem₀, hanon₀⟩
    have hmin : ∀ e' ∈ evs, e'.anonymous = true → (decode e'.name log).isSome →
        strLe e₀.name e'.name = true := by
      intro e' he' ha' hs'
      rw [hname₀]
      exact hmin₀ e' (mem_anonymousCandidates.mpr ⟨he', ha'⟩) hs'
    refine ⟨e₀, d, ?_, hmem₀, hanon₀, hdec₀, hmin, ?_⟩
    · rw [hbranch, hanon, hname₀]
    · intro hcontra
      have hle₁ : strLe e₀.name e₁.name = true := hmin e₁ h₁ ha₁ hd₁
      rw [hcontra] at hle₁
      exact strLt_iff_not_le.mp hlt hle₁

/-- Witness for C3: with anonymous events `C` and `D` in descriptor order
`[D, C]`, both decodable from a topicless log, the dispatcher returns `C`'s
variant, the lexicographically first. -/
theorem anonymous_decode_lex_first_witness :
    ∃ e d, parseLog sig0 dec1 [evD, evC] log1 = ParseResult.ok e.name d
      ∧ e ∈ [evD, evC] ∧ e.anonymous = true ∧ dec1 e.name log1 = some d
      ∧ (∀ e' ∈ [evD, evC], e'.anonymous = true → (dec1 e'.name log1).isSome →
          strLe e.name e'.name = true)
      ∧ e.name ≠ evD.name :=
  anonymous_decode_lex_first sig0 dec1 [evD, evC] log1 evC evD (by decide) (by decide)
    rfl rfl (by decide) (by decide) (by decide)
    (fun n d hc => by simp [standardPhase, log1] at hc)

/-- Counterexample to claim C9 as stated: the `Event` enum's variant list
follows the incidental iteration order of the descriptor's unordered event
collection — the same unordered set of events, iterated in two different
orders, produces two different outputs. -/
theorem generation_order_dependent_counterexample :
    List.Perm [evA, evB] [evB, evA]
    ∧ expandEventEnum [evA, evB] ≠ expandEventEnum [evB, evA] := by
  constructor
  · exact List.Perm.swap evB evA []
  · decide

/-- Claim C9 (amended): generation is a pure function of the descriptor
together with the incidental iteration order of its event collection — for a
fixed order it is deterministic by construction — and the decode dispatcher
alone is additionally independent of that order (the events are sorted by
name before it is built, which pins the order down when the names are
distinct); the aggregate `Event` enum, by contrast, follows the incidental
order, so whole-output byte-identity across runs does not hold. -/
theorem dispatcher_iteration_order_invariant {H D : Type} [DecidableEq H]
    (sigHash : AbiEvent → H) (decode : String → RawLog H → Option D)
    (evs₁ evs₂ : List AbiEvent) (log : RawLog H)
    (hperm : List.Perm evs₁ evs₂) (hnd : (evs₁.map AbiEvent.name).Nodup) :
    parseLog sigHash decode evs₁ log = parseLog sigHash decode evs₂ log := by
  have hs : sortEventsByName evs₁ = sortEventsByName evs₂ :=
    sortEventsByName_perm_invariant hperm hnd
  simp only [parseLog, standardPhase, anonymousPhase, standardCandidates,
    anonymousCandidates, hs]

/-- Witness for the amended C9: the dispatcher gives the same answer for the
two iteration orders of the `{C, D}` event set. -/
theorem dispatcher_iteration_order_invariant_witness :
    parseLog sig0 dec1 [evC, evD] log1 = parseLog sig0 dec1 [evD, evC] log1 :=
  dispatcher_iteration_order_invariant sig0 dec1 [evC, evD] [evD, evC] log1
    (by decide) (by decide)
